import Mathlib

/-!
# Verification of the multi-tenant WhatsApp scheduling bot

A shallow embedding of the parts of the repository that the specification's
testable properties talk about:

* the Credential Vault (`admin-console/lib/encryption.ts`): AES-256-GCM
  encryption of tenant calendar secrets in the textual format
  `hex(iv):hex(authTag):hex(ciphertext)`, with `decrypt` and the structural
  check `isEncrypted`;
* WhatsApp number registration (`admin-console/lib/actions/whatsapp-numbers.ts`):
  `addWhatsAppNumber` and the uniqueness of `phone_number_id`;
* the scheduling engine, deduplication store and conversation memory of the
  Flask bot, whose Python sources are documented but not shipped here; those
  are modelled from the specification (each such definition says so in its
  doc comment).

Strings are modelled as `List Char`, byte strings as `List (Fin 256)`.
The AES-GCM primitive of Node's `crypto` library is external code; it is
modelled by its interface: a CTR keystream (GCM encrypts by XOR with a
keystream derived from key and nonce) and an authentication-tag function
`mkTag`, both passed as explicit parameters.  Theorems that need the AEAD
authenticity guarantee state it as an explicit hypothesis on `mkTag`.
-/

namespace WhatsAppBot

/-- A byte, as used for nonces, tags and ciphertexts. -/
abbrev Byte := Fin 256

theorem xor_lt_256 (a b : Nat) (ha : a < 256) (hb : b < 256) : a ^^^ b < 256 := by
  rw [show (256 : Nat) = 2 ^ 8 from by norm_num] at ha hb ⊢
  exact Nat.xor_lt_two_pow ha hb

/-- XOR of two bytes. -/
def byteXor (a b : Byte) : Byte :=
  ⟨a.val ^^^ b.val, xor_lt_256 a.val b.val a.isLt b.isLt⟩

theorem byteXor_cancel (a b : Byte) : byteXor (byteXor a b) b = a := by
  apply Fin.ext
  show (a.val ^^^ b.val) ^^^ b.val = a.val
  rw [Nat.xor_assoc, Nat.xor_self, Nat.xor_zero]

/-! ## Hex encoding (`Buffer.toString("hex")` / hex parsing) -/

/-- The lowercase hex digit for `n < 16`, as produced by Node's
`Buffer.toString("hex")`. -/
def hexDigitChar (n : Nat) : Char :=
  if n < 10 then Char.ofNat (48 + n) else Char.ofNat (87 + n)

/-- Two lowercase hex digits for one byte. -/
def byteToHex (b : Byte) : List Char :=
  [hexDigitChar (b.val / 16), hexDigitChar (b.val % 16)]

/-- Hex rendering of a byte string, most significant digit first, as
`Buffer.toString("hex")` does. -/
def bytesToHex : List Byte → List Char
  | [] => []
  | b :: bs => byteToHex b ++ bytesToHex bs

/-- The value of one hex digit, case-insensitive as in Node's hex parsing
and in the `/^[0-9a-f]+$/i` check. -/
def hexDigitVal (c : Char) : Option (Fin 16) :=
  if h : 48 ≤ c.toNat ∧ c.toNat ≤ 57 then some ⟨c.toNat - 48, by omega⟩
  else if h : 97 ≤ c.toNat ∧ c.toNat ≤ 102 then some ⟨c.toNat - 87, by omega⟩
  else if h : 65 ≤ c.toNat ∧ c.toNat ≤ 70 then some ⟨c.toNat - 55, by omega⟩
  else none

/-- One byte from a high and a low hex digit. -/
def hexPair (h l : Fin 16) : Byte :=
  ⟨16 * h.val + l.val, by have := h.isLt; have := l.isLt; omega⟩

/-- Parse a hex string into bytes; `none` on odd length or a non-hex digit. -/
def hexToBytes : List Char → Option (List Byte)
  | [] => some []
  | [_] => none
  | c1 :: c2 :: cs =>
    match hexDigitVal c1, hexDigitVal c2, hexToBytes cs with
    | some h, some l, some bs => some (hexPair h l :: bs)
    | _, _, _ => none

/-- Whether a character passes the `[0-9a-f]` class with the `i` flag. -/
def isHexDigitChar (c : Char) : Bool :=
  (48 ≤ c.toNat && c.toNat ≤ 57) || (97 ≤ c.toNat && c.toNat ≤ 102) ||
    (65 ≤ c.toNat && c.toNat ≤ 70)

/-- The test `/^[0-9a-f]+$/i.test(s)`: nonempty and all hex digits. -/
def hexShapeTest (s : List Char) : Bool :=
  !s.isEmpty && s.all isHexDigitChar

theorem hexDigitVal_hexDigitChar :
    ∀ n : Fin 16, hexDigitVal (hexDigitChar n.val) = some n := by
  decide

theorem hexDigitChar_ne_colon : ∀ n : Fin 16, hexDigitChar n.val ≠ ':' := by
  decide

theorem isHexDigitChar_hexDigitChar :
    ∀ n : Fin 16, isHexDigitChar (hexDigitChar n.val) = true := by
  decide

theorem hexPair_div_mod (b : Byte) :
    hexPair ⟨b.val / 16, by omega⟩ ⟨b.val % 16, by omega⟩ = b := by
  apply Fin.ext
  simp [hexPair, Nat.div_add_mod]

theorem hexToBytes_bytesToHex (bs : List Byte) :
    hexToBytes (bytesToHex bs) = some bs := by
  induction bs with
  | nil => rfl
  | cons b bs ih =>
    have hh := hexDigitVal_hexDigitChar ⟨b.val / 16, by omega⟩
    have hl := hexDigitVal_hexDigitChar ⟨b.val % 16, by omega⟩
    show hexToBytes (hexDigitChar (b.val / 16) :: hexDigitChar (b.val % 16) ::
      bytesToHex bs) = some (b :: bs)
    simp only [hexToBytes, hh, hl, ih]
    rw [hexPair_div_mod]

theorem bytesToHex_length (bs : List Byte) :
    (bytesToHex bs).length = 2 * bs.length := by
  induction bs with
  | nil => rfl
  | cons b bs ih => simp [bytesToHex, byteToHex, ih]; ring

theorem bytesToHex_no_colon (bs : List Byte) :
    ∀ c ∈ bytesToHex bs, c ≠ ':' := by
  induction bs with
  | nil => intro c hc; cases hc
  | cons b bs ih =>
    intro c hc
    simp only [bytesToHex, byteToHex, List.cons_append, List.nil_append,
      List.mem_cons] at hc
    rcases hc with rfl | rfl | hc
    · exact hexDigitChar_ne_colon ⟨b.val / 16, by omega⟩
    · exact hexDigitChar_ne_colon ⟨b.val % 16, by omega⟩
    · exact ih c hc

theorem bytesToHex_all_hex (bs : List Byte) :
    ∀ c ∈ bytesToHex bs, isHexDigitChar c = true := by
  induction bs with
  | nil => intro c hc; cases hc
  | cons b bs ih =>
    intro c hc
    simp only [bytesToHex, byteToHex, List.cons_append, List.nil_append,
      List.mem_cons] at hc
    rcases hc with rfl | rfl | hc
    · exact isHexDigitChar_hexDigitChar ⟨b.val / 16, by omega⟩
    · exact isHexDigitChar_hexDigitChar ⟨b.val % 16, by omega⟩
    · exact ih c hc

/-! ## Splitting on `":"` (JavaScript `text.split(":")`) -/

/-- Worker for `splitOnColon`; `acc` holds the current field reversed. -/
def splitOnColonAux : List Char → List Char → List (List Char)
  | acc, [] => [acc.reverse]
  | acc, c :: cs =>
    if c = ':' then acc.reverse :: splitOnColonAux [] cs
    else splitOnColonAux (c :: acc) cs

/-- `text.split(":")` on a string modelled as a character list. -/
def splitOnColon (s : List Char) : List (List Char) :=
  splitOnColonAux [] s

theorem splitOnColonAux_no_colon (a : List Char) (h : ∀ c ∈ a, c ≠ ':') :
    ∀ acc, splitOnColonAux acc a = [acc.reverse ++ a] := by
  induction a with
  | nil => intro acc; simp [splitOnColonAux]
  | cons c a ih =>
    intro acc
    have hc : c ≠ ':' := h c (List.mem_cons_self c a)
    have ha : ∀ d ∈ a, d ≠ ':' := fun d hd => h d (List.mem_cons_of_mem c hd)
    simp [splitOnColonAux, hc, ih ha]

theorem splitOnColonAux_append (a rest : List Char) (h : ∀ c ∈ a, c ≠ ':') :
    ∀ acc, splitOnColonAux acc (a ++ ':' :: rest) =
      (acc.reverse ++ a) :: splitOnColonAux [] rest := by
  induction a with
  | nil => intro acc; simp [splitOnColonAux]
  | cons c a ih =>
    intro acc
    have hc : c ≠ ':' := h c (List.mem_cons_self c a)
    have ha : ∀ d ∈ a, d ≠ ':' := fun d hd => h d (List.mem_cons_of_mem c hd)
    simp [splitOnColonAux, hc, ih ha]

theorem splitOnColon_three (p0 p1 p2 : List Char)
    (h0 : ∀ c ∈ p0, c ≠ ':') (h1 : ∀ c ∈ p1, c ≠ ':')
    (h2 : ∀ c ∈ p2, c ≠ ':') :
    splitOnColon (p0 ++ ':' :: p1 ++ ':' :: p2) = [p0, p1, p2] := by
  unfold splitOnColon
  have e : p0 ++ ':' :: p1 ++ ':' :: p2 = p0 ++ ':' :: (p1 ++ ':' :: p2) := by
    simp
  rw [e, splitOnColonAux_append p0 (p1 ++ ':' :: p2) h0 []]
  rw [splitOnColonAux_append p1 p2 h1 []]
  rw [splitOnColonAux_no_colon p2 h2 []]
  simp

/-! ## The Credential Vault (`admin-console/lib/encryption.ts`)

The source uses Node's `crypto` AES-256-GCM.  The library primitive is
modelled by its interface: GCM encrypts by XOR-ing the plaintext with a
keystream determined by the key and the 16-byte random IV, and produces a
16-byte authentication tag over the nonce and ciphertext.  The key is fixed
(derived once from the configured secret by `getEncryptionKey`), so the
model's `ks : List Byte → Nat → Byte` gives the keystream byte at each
position for a given IV, and `mkTag : List Byte → List Byte → List Byte`
gives the tag for a given IV and ciphertext. -/

/-- `IV_LENGTH` from the source. -/
def IV_LENGTH : Nat := 16

/-- `AUTH_TAG_LENGTH` from the source. -/
def AUTH_TAG_LENGTH : Nat := 16

/-- CTR-mode XOR of a byte stream against the keystream `pad`, starting at
stream position `i`.  Models both `cipher.update/final` (encryption) and
`decipher.update/final` (decryption), which are the same XOR in GCM. -/
def ctrXor (pad : Nat → Byte) : Nat → List Byte → List Byte
  | _, [] => []
  | i, b :: bs => byteXor b (pad i) :: ctrXor pad (i + 1) bs

/-- The three-field text `hex(iv) ++ ":" ++ hex(tag) ++ ":" ++ hex(ct)`,
the vault's on-disk format. -/
def encodeFields (iv tag ct : List Byte) : List Char :=
  bytesToHex iv ++ ':' :: bytesToHex tag ++ ':' :: bytesToHex ct

/-- `encrypt` from `encryption.ts`: AES-256-GCM with the random `iv`
passed explicitly (the source draws it from `crypto.randomBytes(16)`),
returning `iv.toString("hex") + ":" + authTag.toString("hex") + ":" +
encrypted`. -/
def encrypt (ks : List Byte → Nat → Byte) (mkTag : List Byte → List Byte → List Byte)
    (iv pt : List Byte) : List Char :=
  let ct := ctrXor (ks iv) 0 pt
  encodeFields iv (mkTag iv ct) ct

/-- `decrypt` from `encryption.ts`: split on `":"`, require exactly three
fields, hex-decode them, then GCM-decrypt; `decipher.final()` throws when
the recomputed authentication tag does not match the presented one.
(Node's hex parsing is lenient about stray non-hex characters; the model
rejects them, which only matters for inputs that are neither produced by
`encrypt` nor byte-level tamperings of such outputs.) -/
def decrypt (ks : List Byte → Nat → Byte) (mkTag : List Byte → List Byte → List Byte)
    (s : List Char) : Except (List Char) (List Byte) :=
  match splitOnColon s with
  | [p0, p1, p2] =>
    match hexToBytes p0, hexToBytes p1, hexToBytes p2 with
    | some iv, some tag, some ct =>
      if mkTag iv ct = tag then Except.ok (ctrXor (ks iv) 0 ct)
      else Except.error ("bad auth tag".toList)
    | _, _, _ => Except.error ("bad hex".toList)
  | _ => Except.error ("Invalid encrypted text format".toList)

/-- `isEncrypted` from `encryption.ts`: exactly three `":"`-separated
fields, the first of length `IV_LENGTH * 2`, the second of length
`AUTH_TAG_LENGTH * 2`, and all three matching `/^[0-9a-f]+$/i`. -/
def isEncrypted (s : List Char) : Bool :=
  match splitOnColon s with
  | [p0, p1, p2] =>
    p0.length == IV_LENGTH * 2 && p1.length == AUTH_TAG_LENGTH * 2 &&
      hexShapeTest p0 && hexShapeTest p1 && hexShapeTest p2
  | _ => false

theorem ctrXor_cancel (pad : Nat → Byte) (bs : List Byte) :
    ∀ i, ctrXor pad i (ctrXor pad i bs) = bs := by
  induction bs with
  | nil => intro i; rfl
  | cons b bs ih => intro i; simp [ctrXor, byteXor_cancel, ih]

theorem ctrXor_length (pad : Nat → Byte) (bs : List Byte) :
    ∀ i, (ctrXor pad i bs).length = bs.length := by
  induction bs with
  | nil => intro i; rfl
  | cons b bs ih => intro i; simp [ctrXor, ih]

theorem splitOnColon_encodeFields (iv tag ct : List Byte) :
    splitOnColon (encodeFields iv tag ct) =
      [bytesToHex iv, bytesToHex tag, bytesToHex ct] := by
  unfold encodeFields
  exact splitOnColon_three _ _ _ (bytesToHex_no_colon iv)
    (bytesToHex_no_colon tag) (bytesToHex_no_colon ct)

theorem decrypt_encodeFields (ks : List Byte → Nat → Byte)
    (mkTag : List Byte → List Byte → List Byte) (iv tag ct : List Byte) :
    decrypt ks mkTag (encodeFields iv tag ct) =
      if mkTag iv ct = tag then Except.ok (ctrXor (ks iv) 0 ct)
      else Except.error ("bad auth tag".toList) := by
  unfold decrypt
  rw [splitOnColon_encodeFields]
  simp only [hexToBytes_bytesToHex]

theorem decrypt_encrypt (ks : List Byte → Nat → Byte)
    (mkTag : List Byte → List Byte → List Byte) (iv pt : List Byte) :
    decrypt ks mkTag (encrypt ks mkTag iv pt) = Except.ok pt := by
  unfold encrypt
  rw [decrypt_encodeFields]
  simp [ctrXor_cancel]

theorem decrypt_error_of_not_three_fields (ks : List Byte → Nat → Byte)
    (mkTag : List Byte → List Byte → List Byte) (s : List Char)
    (h : (splitOnColon s).length ≠ 3) :
    ∃ m, decrypt ks mkTag s = Except.error m := by
  unfold decrypt
  generalize hs : splitOnColon s = l at h ⊢
  match l with
  | [] => exact ⟨_, rfl⟩
  | [_] => exact ⟨_, rfl⟩
  | [_, _] => exact ⟨_, rfl⟩
  | [_, _, _] => simp at h
  | _ :: _ :: _ :: _ :: _ => exact ⟨_, rfl⟩

theorem hexShapeTest_bytesToHex (bs : List Byte) (h : bs ≠ []) :
    hexShapeTest (bytesToHex bs) = true := by
  unfold hexShapeTest
  have hne : bytesToHex bs ≠ [] := by
    intro he
    have := bytesToHex_length bs
    rw [he] at this
    simp at this
    exact h this
  simp only [Bool.and_eq_true, Bool.not_eq_true', List.isEmpty_eq_false_iff_exists_mem]
  constructor
  · cases hb : bytesToHex bs with
    | nil => exact absurd hb hne
    | cons c cs => exact ⟨c, by simp⟩
  · exact List.all_eq_true.mpr (bytesToHex_all_hex bs)

/-! ## Claim theorems about the Credential Vault -/

/-- Claim C4: for every plaintext (a string, modelled by its UTF-8 bytes),
decrypting the vault's encryption of it returns exactly that plaintext,
for every keystream, tag function and nonce the AES-GCM library may use. -/
theorem claim_C4_decrypt_encrypt_roundtrip (ks : List Byte → Nat → Byte)
    (mkTag : List Byte → List Byte → List Byte) (iv pt : List Byte) :
    decrypt ks mkTag (encrypt ks mkTag iv pt) = Except.ok pt :=
  decrypt_encrypt ks mkTag iv pt

/-- Claim C7: the value `encrypt` returns carries the nonce used for the
call, the authentication tag, and the ciphertext payload in that order
(hex-rendered, `":"`-separated), and the nonce and tag are recoverable
from the output's leading fields by splitting and hex-decoding. -/
theorem claim_C7_encrypt_output_format (ks : List Byte → Nat → Byte)
    (mkTag : List Byte → List Byte → List Byte) (iv pt : List Byte) :
    splitOnColon (encrypt ks mkTag iv pt) =
      [bytesToHex iv, bytesToHex (mkTag iv (ctrXor (ks iv) 0 pt)),
        bytesToHex (ctrXor (ks iv) 0 pt)]
    ∧ (splitOnColon (encrypt ks mkTag iv pt)).map hexToBytes =
      [some iv, some (mkTag iv (ctrXor (ks iv) 0 pt)),
        some (ctrXor (ks iv) 0 pt)] := by
  have e : splitOnColon (encrypt ks mkTag iv pt) =
      [bytesToHex iv, bytesToHex (mkTag iv (ctrXor (ks iv) 0 pt)),
        bytesToHex (ctrXor (ks iv) 0 pt)] := splitOnColon_encodeFields _ _ _
  refine ⟨e, ?_⟩
  rw [e]
  simp [hexToBytes_bytesToHex]

/-- Claim C8: `decrypt` fails with an error (and returns no plaintext) on
every input that does not consist of exactly three `":"`-separated fields,
and on every authentic blob whose nonce, tag, or payload field has been
tampered with at the byte level.  Tampering with the nonce or the payload
is rejected under the AEAD authenticity contract of the library, stated
here as the hypothesis that a tag matching the stored one authenticates
only the original nonce/ciphertext pair. -/
theorem claim_C8_decrypt_rejects_malformed_and_tampered
    (ks : List Byte → Nat → Byte) (mkTag : List Byte → List Byte → List Byte)
    (iv ct : List Byte) :
    (∀ pt, encrypt ks mkTag iv pt =
      encodeFields iv (mkTag iv (ctrXor (ks iv) 0 pt)) (ctrXor (ks iv) 0 pt))
    ∧ (∀ s : List Char, (splitOnColon s).length ≠ 3 →
        ∃ m, decrypt ks mkTag s = Except.error m)
    ∧ (∀ tag', tag' ≠ mkTag iv ct →
        ∃ m, decrypt ks mkTag (encodeFields iv tag' ct) = Except.error m)
    ∧ (∀ iv', iv' ≠ iv → (mkTag iv' ct = mkTag iv ct → iv' = iv) →
        ∃ m, decrypt ks mkTag (encodeFields iv' (mkTag iv ct) ct) =
          Except.error m)
    ∧ (∀ ct', ct' ≠ ct → (mkTag iv ct' = mkTag iv ct → ct' = ct) →
        ∃ m, decrypt ks mkTag (encodeFields iv (mkTag iv ct) ct') =
          Except.error m) := by
  refine ⟨fun pt => rfl, decrypt_error_of_not_three_fields ks mkTag, ?_, ?_, ?_⟩
  · intro tag' hne
    rw [decrypt_encodeFields]
    rw [if_neg (fun he => hne he.symm)]
    exact ⟨_, rfl⟩
  · intro iv' hne hauth
    rw [decrypt_encodeFields]
    rw [if_neg (fun he => hne (hauth he))]
    exact ⟨_, rfl⟩
  · intro ct' hne hauth
    rw [decrypt_encodeFields]
    rw [if_neg (fun he => hne (hauth he))]
    exact ⟨_, rfl⟩

/-- A trivial keystream, standing in for a concrete AES-256-CTR keystream
in witness instantiations. -/
def ksConst : List Byte → Nat → Byte := fun _ _ => 0

/-- A concrete tag function satisfying the AEAD authenticity contract at
the witness's instances. -/
def mkTagConcat : List Byte → List Byte → List Byte := fun iv ct => iv ++ ct

/-- A concrete 16-byte tag function, for witnesses needing the real GCM
tag length. -/
def mkTag16 : List Byte → List Byte → List Byte :=
  fun _ _ => List.replicate AUTH_TAG_LENGTH 0

theorem claim_C8_witness :
    (∃ m, decrypt ksConst mkTagConcat ("abc".toList) = Except.error m)
    ∧ (∃ m, decrypt ksConst mkTagConcat (encodeFields [0] [] [1]) =
        Except.error m)
    ∧ (∃ m, decrypt ksConst mkTagConcat
        (encodeFields [2] (mkTagConcat [0] [1]) [1]) = Except.error m)
    ∧ (∃ m, decrypt ksConst mkTagConcat
        (encodeFields [0] (mkTagConcat [0] [1]) []) = Except.error m) := by
  obtain ⟨-, h1, h2, h3, h4⟩ :=
    claim_C8_decrypt_rejects_malformed_and_tampered ksConst mkTagConcat [0] [1]
  exact ⟨h1 "abc".toList (by decide), h2 [] (by decide),
    h3 [2] (by decide) (by decide), h4 [] (by decide) (by decide)⟩

/-- Claim C10: `isEncrypted` accepts the encryption of every non-empty
plaintext and rejects the encryption of the empty plaintext (its
ciphertext field is empty, failing the `/^[0-9a-f]+$/i` shape check),
even though decryption of the latter still succeeds and returns the empty
plaintext.  The hypotheses record what the library guarantees about its
outputs: a 16-byte IV and a 16-byte authentication tag. -/
theorem claim_C10_isEncrypted_encrypt (ks : List Byte → Nat → Byte)
    (mkTag : List Byte → List Byte → List Byte) (iv pt : List Byte)
    (hiv : iv.length = IV_LENGTH)
    (htag : (mkTag iv (ctrXor (ks iv) 0 pt)).length = AUTH_TAG_LENGTH) :
    (pt ≠ [] → isEncrypted (encrypt ks mkTag iv pt) = true)
    ∧ (pt = [] → isEncrypted (encrypt ks mkTag iv pt) = false
        ∧ decrypt ks mkTag (encrypt ks mkTag iv pt) = Except.ok []) := by
  have hsplit : splitOnColon (encrypt ks mkTag iv pt) =
      [bytesToHex iv, bytesToHex (mkTag iv (ctrXor (ks iv) 0 pt)),
        bytesToHex (ctrXor (ks iv) 0 pt)] := splitOnColon_encodeFields _ _ _
  have hivne : iv ≠ [] := by
    intro he; rw [he] at hiv; simp [IV_LENGTH] at hiv
  have htagne : mkTag iv (ctrXor (ks iv) 0 pt) ≠ [] := by
    intro he; rw [he] at htag; simp [AUTH_TAG_LENGTH] at htag
  constructor
  · intro hpt
    have hctne : ctrXor (ks iv) 0 pt ≠ [] := by
      intro he
      have := ctrXor_length (ks iv) pt 0
      rw [he] at this
      simp at this
      exact hpt (List.length_eq_zero.mp this.symm)
    unfold isEncrypted
    rw [hsplit]
    simp only [Bool.and_eq_true, beq_iff_eq]
    refine ⟨⟨⟨⟨?_, ?_⟩, ?_⟩, ?_⟩, ?_⟩
    · rw [bytesToHex_length, hiv, Nat.mul_comm]
    · rw [bytesToHex_length, htag, Nat.mul_comm]
    · exact hexShapeTest_bytesToHex iv hivne
    · exact hexShapeTest_bytesToHex _ htagne
    · exact hexShapeTest_bytesToHex _ hctne
  · intro hpt
    subst hpt
    constructor
    · unfold isEncrypted
      rw [hsplit]
      show (_ && _ && _ && _ && hexShapeTest (bytesToHex (ctrXor (ks iv) 0 []))) = false
      simp [ctrXor, bytesToHex, hexShapeTest]
    · exact decrypt_encrypt ks mkTag iv []

theorem claim_C10_witness :
    (List.replicate IV_LENGTH (0 : Byte)).length = IV_LENGTH
    ∧ (mkTag16 (List.replicate IV_LENGTH (0 : Byte))
        (ctrXor (ksConst (List.replicate IV_LENGTH (0 : Byte))) 0 [7])).length =
        AUTH_TAG_LENGTH
    ∧ (([7] : List Byte) ≠ [] →
        isEncrypted (encrypt ksConst mkTag16 (List.replicate IV_LENGTH 0) [7]) =
          true)
    ∧ (isEncrypted (encrypt ksConst mkTag16 (List.replicate IV_LENGTH 0) []) =
          false
        ∧ decrypt ksConst mkTag16
            (encrypt ksConst mkTag16 (List.replicate IV_LENGTH 0) []) =
          Except.ok []) := by
  refine ⟨by decide, by decide, ?_, ?_⟩
  · exact (claim_C10_isEncrypted_encrypt ksConst mkTag16
      (List.replicate IV_LENGTH 0) [7] (by decide) (by decide)).1
  · exact (claim_C10_isEncrypted_encrypt ksConst mkTag16
      (List.replicate IV_LENGTH 0) [] (by decide) (by decide)).2 rfl

/-! ## The Scheduling Engine

Modelled from the spec: the Python sources `app/services/calendar_tools.py`
(`schedule_appointment`, `check_overlapping_events`, `cancel_appointment`)
are documented in the repository but not shipped here, so the engine is
modelled from §4.6 of the specification: `schedule` counts confirmed
appointments of the tenant overlapping the requested half-open interval,
rejects with `CapacityExceeded` when the count has reached `max_concurrent`,
then suppresses duplicates created by the same user for the same interval
within a 5-minute look-back window, and otherwise creates the appointment.
The spec's mandated per-tenant serialization makes concurrent calls
equivalent to some serial order, so states are transformed atomically. -/

/-- Status of an `Appointment`. -/
inductive ApptStatus
  | confirmed
  | canceled
deriving DecidableEq, Repr

/-- An `Appointment`: tenant, user identity, half-open interval
`[start, stop)` in minutes, status and creation timestamp. -/
structure Appt where
  apptId : Nat
  tenant : Nat
  user : Nat
  start : Nat
  stop : Nat
  status : ApptStatus
  createdAt : Nat
deriving DecidableEq, Repr

/-- Modelled from the spec: two half-open intervals `[a,b)` and `[c,d)`
overlap iff `a < d && c < b`. -/
def intervalsOverlap (a b c d : Nat) : Bool :=
  decide (a < d) && decide (c < b)

/-- Whether an appointment counts against tenant `tn`'s capacity for the
interval `[s, e)`: same tenant, confirmed, and overlapping. -/
def isCountedOverlap (tn s e : Nat) (a : Appt) : Bool :=
  a.tenant == tn && a.status == ApptStatus.confirmed &&
    intervalsOverlap a.start a.stop s e

/-- Modelled from the spec: `check_overlapping_events`, the count of
confirmed appointments of the tenant overlapping `[s, e)`. -/
def countOverlapping (tn s e : Nat) (l : List Appt) : Nat :=
  (l.filter (isCountedOverlap tn s e)).length

/-- Scheduling-engine state: the appointment table and a fresh-id counter. -/
structure SchedState where
  appts : List Appt
  nextId : Nat
deriving DecidableEq, Repr

/-- Result of a `schedule` call. -/
inductive ScheduleResult
  | created (a : Appt)
  | capacityExceeded
  | duplicateSuppressed
deriving DecidableEq, Repr

/-- Result of a `cancel` call. -/
inductive CancelResult
  | ok
  | notFound
deriving DecidableEq, Repr

/-- The spec's duplicate-suppression look-back window, in minutes. -/
def LOOKBACK_MINUTES : Nat := 5

/-- Whether an existing appointment makes a new request a suppressed
duplicate: same tenant, same user, confirmed, identical interval, created
within the look-back window. -/
def isRecentDuplicate (tn user s e now : Nat) (a : Appt) : Bool :=
  a.tenant == tn && a.user == user && a.status == ApptStatus.confirmed &&
    a.start == s && a.stop == e && decide (now ≤ a.createdAt + LOOKBACK_MINUTES)

/-- Modelled from the spec: `schedule_appointment` under per-tenant
serialization.  Capacity is checked first against the current table, then
the duplicate look-back, then the appointment is created. -/
def schedule (maxConcurrent tn user s dur now : Nat) (st : SchedState) :
    ScheduleResult × SchedState :=
  let e := s + dur
  if maxConcurrent ≤ countOverlapping tn s e st.appts then
    (ScheduleResult.capacityExceeded, st)
  else if st.appts.any (isRecentDuplicate tn user s e now) then
    (ScheduleResult.duplicateSuppressed, st)
  else
    let a : Appt := ⟨st.nextId, tn, user, s, e, ApptStatus.confirmed, now⟩
    (ScheduleResult.created a, ⟨a :: st.appts, st.nextId + 1⟩)

/-- Whether `a` is an upcoming confirmed appointment of `(tn, user)`. -/
def isUpcoming (tn user now : Nat) (a : Appt) : Bool :=
  a.tenant == tn && a.user == user && a.status == ApptStatus.confirmed &&
    decide (now ≤ a.start)

/-- Cancel the first appointment (most recently created first, since
`schedule` prepends) satisfying `p`; `none` when there is none. -/
def cancelFirst (p : Appt → Bool) : List Appt → Option (List Appt)
  | [] => none
  | a :: rest =>
    if p a then some ({ a with status := ApptStatus.canceled } :: rest)
    else (cancelFirst p rest).map (a :: ·)

/-- Modelled from the spec: `cancel_appointment` — locate the user's most
recent upcoming confirmed appointment and mark it canceled. -/
def cancel (tn user now : Nat) (st : SchedState) : CancelResult × SchedState :=
  match cancelFirst (isUpcoming tn user now) st.appts with
  | some l => (CancelResult.ok, ⟨l, st.nextId⟩)
  | none => (CancelResult.notFound, st)

/-- The spec's capacity invariant for one tenant: no more than
`maxConcurrent` confirmed appointments of the tenant have mutually
overlapping intervals. -/
def CapacityOk (maxConcurrent tn : Nat) (l : List Appt) : Prop :=
  ∀ S : List Appt, S.Sublist l →
    (∀ a ∈ S, a.tenant = tn ∧ a.status = ApptStatus.confirmed) →
    S.Pairwise (fun x y => intervalsOverlap x.start x.stop y.start y.stop = true) →
    S.length ≤ maxConcurrent

theorem intervalsOverlap_comm (a b c d : Nat) :
    intervalsOverlap a b c d = intervalsOverlap c d a b := by
  simp [intervalsOverlap, Bool.and_comm]

theorem capacityOk_nil (maxConcurrent tn : Nat) :
    CapacityOk maxConcurrent tn [] := by
  intro S hS _ _
  have := hS.length_le
  simp at this
  simp [this]

theorem schedule_preserves_capacityOk (maxConcurrent tn user s dur now : Nat)
    (st : SchedState) (hK : CapacityOk maxConcurrent tn st.appts) :
    CapacityOk maxConcurrent tn (schedule maxConcurrent tn user s dur now st).2.appts := by
  unfold schedule
  by_cases h1 : maxConcurrent ≤ countOverlapping tn s (s + dur) st.appts
  · simpa [h1] using hK
  · by_cases h2 : st.appts.any (isRecentDuplicate tn user s (s + dur) now)
    · simpa [h1, h2] using hK
    · simp only [h1, h2, if_false, if_neg, Bool.false_eq_true, not_false_eq_true]
      intro S hS hall hpw
      rcases List.sublist_cons_iff.mp hS with hS' | ⟨r, rfl, hr⟩
      · exact hK S hS' hall hpw
      · rw [List.pairwise_cons] at hpw
        obtain ⟨hov, hpwr⟩ := hpw
        have hcnt : ∀ a ∈ r, isCountedOverlap tn s (s + dur) a = true := by
          intro a ha
          obtain ⟨ht, hc⟩ := hall a (List.mem_cons_of_mem _ ha)
          have := hov a ha
          simp only [isCountedOverlap, Bool.and_eq_true, beq_iff_eq]
          refine ⟨⟨ht, by simp [hc]⟩, ?_⟩
          rw [intervalsOverlap_comm]
          exact this
        have hfil : r.filter (isCountedOverlap tn s (s + dur)) = r :=
          List.filter_eq_self.mpr hcnt
        have hsub := hr.filter (isCountedOverlap tn s (s + dur))
        rw [hfil] at hsub
        have hlen : r.length ≤ countOverlapping tn s (s + dur) st.appts :=
          hsub.length_le
        simp only [List.length_cons]
        omega

theorem cancelFirst_confirmed_sublist (p : Appt → Bool) :
    ∀ (l l' : List Appt), cancelFirst p l = some l' →
    ∀ S : List Appt, S.Sublist l' →
      (∀ a ∈ S, a.status = ApptStatus.confirmed) → S.Sublist l := by
  intro l
  induction l with
  | nil => intro l' h; cases h
  | cons a rest ih =>
    intro l' h S hS hall
    by_cases hp : p a = true
    · rw [cancelFirst, if_pos hp] at h
      cases h
      rcases List.sublist_cons_iff.mp hS with hS' | ⟨r, rfl, hr⟩
      · exact hS'.cons a
      · have := hall _ (List.mem_cons_self _ _)
        exact ApptStatus.noConfusion this
    · rw [cancelFirst, if_neg hp] at h
      cases hrec : cancelFirst p rest with
      | none => rw [hrec] at h; cases h
      | some rest' =>
        rw [hrec] at h
        simp at h
        subst h
        rcases List.sublist_cons_iff.mp hS with hS' | ⟨r, rfl, hr⟩
        · exact (ih rest' hrec S hS' hall).cons a
        · have hr' := ih rest' hrec r hr
            (fun b hb => hall b (List.mem_cons_of_mem _ hb))
          exact hr'.cons₂ a

theorem cancel_preserves_capacityOk (maxConcurrent tn user now : Nat)
    (st : SchedState) (hK : CapacityOk maxConcurrent tn st.appts) :
    CapacityOk maxConcurrent tn (cancel tn user now st).2.appts := by
  unfold cancel
  cases hrec : cancelFirst (isUpcoming tn user now) st.appts with
  | none => exact hK
  | some l =>
    intro S hS hall hpw
    have hsub := cancelFirst_confirmed_sublist _ _ _ hrec S hS
      (fun a ha => (hall a ha).2)
    exact hK S hsub hall hpw

/-! ### The spec's concrete capacity scenario (`max_concurrent = 2`) -/

/-- Empty calendar of tenant 0. -/
def demoEmpty : SchedState := ⟨[], 0⟩

/-- User 1 books `[10:00, 11:00)` (minutes 600–660). -/
def demoBook1 : ScheduleResult × SchedState := schedule 2 0 1 600 60 0 demoEmpty

/-- User 2 books the overlapping `[10:30, 11:30)`. -/
def demoBook2 : ScheduleResult × SchedState := schedule 2 0 2 630 60 0 demoBook1.2

/-- User 3 attempts the overlapping `[10:15, 11:15)` with both slots taken. -/
def demoBook3 : ScheduleResult × SchedState := schedule 2 0 3 615 60 0 demoBook2.2

/-- User 1 cancels their booking. -/
def demoCancel : CancelResult × SchedState := cancel 0 1 0 demoBook2.2

/-- User 3 retries the overlapping booking after the cancellation. -/
def demoRebook : ScheduleResult × SchedState := schedule 2 0 3 615 60 0 demoCancel.2

/-! ### Claim theorems about the Scheduling Engine -/

/-- Claim C1: `schedule` and `cancel` preserve the per-tenant capacity
invariant — at most `max_concurrent` confirmed appointments of a tenant
with mutually (pairwise) overlapping intervals — and, concretely, with
`max_concurrent = 2`: two overlapping bookings succeed, a third
overlapping `schedule` call returns `CapacityExceeded`, and after one
booking is canceled a new overlapping `schedule` call succeeds. -/
theorem claim_C1_capacity_invariant :
    (∀ maxConcurrent tn user s dur now st, CapacityOk maxConcurrent tn st.appts →
        CapacityOk maxConcurrent tn
          (schedule maxConcurrent tn user s dur now st).2.appts)
    ∧ (∀ maxConcurrent tn user now st, CapacityOk maxConcurrent tn st.appts →
        CapacityOk maxConcurrent tn (cancel tn user now st).2.appts)
    ∧ (∃ a, demoBook1.1 = ScheduleResult.created a)
    ∧ (∃ a, demoBook2.1 = ScheduleResult.created a)
    ∧ demoBook3.1 = ScheduleResult.capacityExceeded
    ∧ demoCancel.1 = CancelResult.ok
    ∧ (∃ a, demoRebook.1 = ScheduleResult.created a) := by
  refine ⟨schedule_preserves_capacityOk, cancel_preserves_capacityOk,
    ⟨⟨0, 0, 1, 600, 660, ApptStatus.confirmed, 0⟩, by decide⟩,
    ⟨⟨1, 0, 2, 630, 690, ApptStatus.confirmed, 0⟩, by decide⟩,
    by decide, by decide,
    ⟨⟨2, 0, 3, 615, 675, ApptStatus.confirmed, 0⟩, by decide⟩⟩

theorem claim_C1_witness :
    CapacityOk 2 0 ([] : List Appt)
    ∧ CapacityOk 2 0 (schedule 2 0 1 600 60 0 ⟨[], 0⟩).2.appts
    ∧ CapacityOk 2 0 (cancel 0 1 0 ⟨[], 0⟩).2.appts := by
  have h0 : CapacityOk 2 0 ([] : List Appt) := capacityOk_nil 2 0
  exact ⟨h0, claim_C1_capacity_invariant.1 2 0 1 600 60 0 ⟨[], 0⟩ h0,
    claim_C1_capacity_invariant.2.1 2 0 1 0 ⟨[], 0⟩ h0⟩

/-- Claim C5: two half-open intervals `[a,b)` and `[c,d)` overlap exactly
when `a < d && c < b`; `[10:00,11:00)` and `[10:30,11:30)` overlap while
`[10:00,11:00)` and `[11:00,12:00)` do not; and the capacity counting of
the scheduling engine counts precisely the tenant's confirmed
appointments whose intervals satisfy this overlap notion. -/
theorem claim_C5_overlap_definition :
    (∀ a b c d : Nat, intervalsOverlap a b c d = true ↔ (a < d ∧ c < b))
    ∧ intervalsOverlap 600 660 630 690 = true
    ∧ intervalsOverlap 600 660 660 720 = false
    ∧ (∀ tn s e l, countOverlapping tn s e l =
        (l.filter fun a => a.tenant == tn && a.status == ApptStatus.confirmed &&
          intervalsOverlap a.start a.stop s e).length) := by
  refine ⟨?_, by decide, by decide, fun tn s e l => rfl⟩
  intro a b c d
  simp [intervalsOverlap]

/-- Claim C3: under the per-tenant serialization the spec mandates, two
`schedule` calls for the same tenant and interval with exactly one
capacity slot remaining resolve so that the first to commit succeeds and
the other receives `CapacityExceeded` (the callers `u1`, `u2` and their
wall-clock times are arbitrary, so this covers both serialization
orders): the second call re-counts against the committed state and can no
longer observe `count < max_concurrent`. -/
theorem claim_C3_last_slot_exclusive (maxConcurrent tn u1 u2 s dur now1 now2 : Nat)
    (st : SchedState) (hdur : 0 < dur)
    (hslots : countOverlapping tn s (s + dur) st.appts + 1 = maxConcurrent)
    (hdup : st.appts.any (isRecentDuplicate tn u1 s (s + dur) now1) = false) :
    (∃ a, (schedule maxConcurrent tn u1 s dur now1 st).1 = ScheduleResult.created a)
    ∧ (schedule maxConcurrent tn u2 s dur now2
        (schedule maxConcurrent tn u1 s dur now1 st).2).1 =
      ScheduleResult.capacityExceeded := by
  have h1 : ¬ maxConcurrent ≤ countOverlapping tn s (s + dur) st.appts := by omega
  have hfirst : schedule maxConcurrent tn u1 s dur now1 st =
      (ScheduleResult.created
          ⟨st.nextId, tn, u1, s, s + dur, ApptStatus.confirmed, now1⟩,
        ⟨⟨st.nextId, tn, u1, s, s + dur, ApptStatus.confirmed, now1⟩ :: st.appts,
          st.nextId + 1⟩) := by
    unfold schedule
    rw [if_neg h1, if_neg (by simp [hdup])]
  refine ⟨⟨_, by rw [hfirst]⟩, ?_⟩
  rw [hfirst]
  have hc : isCountedOverlap tn s (s + dur)
      ⟨st.nextId, tn, u1, s, s + dur, ApptStatus.confirmed, now1⟩ = true := by
    simp [isCountedOverlap, intervalsOverlap]
    omega
  have hcnt : countOverlapping tn s (s + dur)
      (⟨st.nextId, tn, u1, s, s + dur, ApptStatus.confirmed, now1⟩ :: st.appts) =
      maxConcurrent := by
    unfold countOverlapping
    rw [List.filter_cons_of_pos hc]
    unfold countOverlapping at hslots
    simp
    omega
  show (schedule maxConcurrent tn u2 s dur now2 _).1 = _
  unfold schedule
  rw [if_pos (by rw [hcnt])]

theorem claim_C3_witness :
    0 < 60
    ∧ countOverlapping 0 600 (600 + 60) (SchedState.mk [] 0).appts + 1 = 1
    ∧ (SchedState.mk [] 0).appts.any (isRecentDuplicate 0 1 600 (600 + 60) 0) = false
    ∧ (∃ a, (schedule 1 0 1 600 60 0 ⟨[], 0⟩).1 = ScheduleResult.created a)
    ∧ (schedule 1 0 2 600 60 0 (schedule 1 0 1 600 60 0 ⟨[], 0⟩).2).1 =
      ScheduleResult.capacityExceeded := by
  refine ⟨by decide, by decide, by decide, ?_, ?_⟩
  · exact (claim_C3_last_slot_exclusive 1 0 1 2 600 60 0 0 ⟨[], 0⟩ (by decide)
      (by decide) (by decide)).1
  · exact (claim_C3_last_slot_exclusive 1 0 1 2 600 60 0 0 ⟨[], 0⟩ (by decide)
      (by decide) (by decide)).2

/-! ## The Deduplication Store

Modelled from the spec: the webhook handler `app/views.py` and the
`processed_messages` store are documented but not shipped here; §4.2 and
§8 of the specification define `claim(message_id) -> isNew` as an atomic
compare-and-set consulted before any processing, so a delivery appends a
user turn and dispatches a reply only when its claim returns `true`. -/

/-- Modelled from the spec: the atomic compare-and-set
`claim(message_id) -> isNew` over the set of already-claimed ids. -/
def claimMessage (id : Nat) (claimed : List Nat) : Bool × List Nat :=
  if id ∈ claimed then (false, claimed) else (true, id :: claimed)

/-- Modelled from the spec: one webhook delivery of message `id` against a
state `(claimed ids, appended user turns, dispatched replies)`: claim
first; on `true` process the turn (append the user message, dispatch one
reply), on `false` skip processing entirely. -/
def deliver (id : Nat) (st : List Nat × Nat × Nat) : List Nat × Nat × Nat :=
  match claimMessage id st.1 with
  | (true, d) => (d, st.2.1 + 1, st.2.2 + 1)
  | (false, d) => (d, st.2.1, st.2.2)

/-- `n` redeliveries of the same message id. -/
def deliverTimes (id : Nat) : Nat → List Nat × Nat × Nat → List Nat × Nat × Nat
  | 0, st => st
  | n + 1, st => deliverTimes id n (deliver id st)

theorem deliver_of_mem (id : Nat) (d : List Nat) (t r : Nat) (h : id ∈ d) :
    deliver id (d, t, r) = (d, t, r) := by
  simp [deliver, claimMessage, h]

theorem deliverTimes_of_mem (id : Nat) :
    ∀ (n : Nat) (d : List Nat) (t r : Nat), id ∈ d →
      deliverTimes id n (d, t, r) = (d, t, r) := by
  intro n
  induction n with
  | zero => intro d t r _; rfl
  | succ n ih =>
    intro d t r h
    show deliverTimes id n (deliver id (d, t, r)) = (d, t, r)
    rw [deliver_of_mem id d t r h]
    exact ih d t r h

/-! ### Claim theorem about the Deduplication Store -/

/-- Claim C2: `claim(message_id)` is a compare-and-set — the first caller
for an id gets `true` (and the id becomes claimed), every later caller
gets `false` with the store unchanged — and therefore redelivering the
same message id any number of times appends exactly one user turn and
dispatches at most one reply. -/
theorem claim_C2_dedup_idempotence :
    (∀ id claimed, id ∉ claimed →
      claimMessage id claimed = (true, id :: claimed))
    ∧ (∀ id claimed, id ∈ claimed → claimMessage id claimed = (false, claimed))
    ∧ (∀ id n claimed, id ∉ claimed →
        (deliverTimes id (n + 1) (claimed, 0, 0)).2.1 = 1
        ∧ (deliverTimes id (n + 1) (claimed, 0, 0)).2.2 ≤ 1) := by
  refine ⟨fun id claimed h => by simp [claimMessage, h],
    fun id claimed h => by simp [claimMessage, h], ?_⟩
  intro id n claimed h
  have h1 : deliver id (claimed, 0, 0) = (id :: claimed, 1, 1) := by
    simp [deliver, claimMessage, h]
  have h2 : deliverTimes id (n + 1) (claimed, 0, 0) = (id :: claimed, 1, 1) := by
    show deliverTimes id n (deliver id (claimed, 0, 0)) = _
    rw [h1]
    exact deliverTimes_of_mem id n (id :: claimed) 1 1 (List.mem_cons_self id claimed)
  rw [h2]
  exact ⟨rfl, le_refl 1⟩

theorem claim_C2_witness :
    (5 : Nat) ∉ ([] : List Nat)
    ∧ claimMessage 5 [] = (true, [5])
    ∧ ((7 : Nat) ∈ ([7] : List Nat) ∧ claimMessage 7 [7] = (false, [7]))
    ∧ (deliverTimes 5 3 ([], 0, 0)).2.1 = 1
    ∧ (deliverTimes 5 3 ([], 0, 0)).2.2 ≤ 1 := by
  obtain ⟨hnew, hdup, hturns⟩ := claim_C2_dedup_idempotence
  exact ⟨by decide, hnew 5 [] (by decide), ⟨by decide, hdup 7 [7] (by decide)⟩,
    (hturns 5 2 [] (by decide)).1, (hturns 5 2 [] (by decide)).2⟩

/-! ## Conversation Memory

Modelled from the spec: `app/database/conversation_service.py`
(`store_conversation_message`, history retrieval) is documented but not
shipped here; §4.4 of the specification defines `append(tenant, user,
role, content)` and `recent(tenant, user, limit)` over threads keyed by
the composite `(tenant, user)` pair, capped with FIFO eviction by
insertion order.  The store is modelled as the `conversations` table: a
single list in insertion (chronological) order. -/

/-- One stored conversation message. -/
structure Msg where
  tenant : Nat
  user : Nat
  role : Nat
  content : Nat
deriving DecidableEq, Repr

/-- Whether a message belongs to the `(tn, u)` thread. -/
def sameThread (tn u : Nat) (m : Msg) : Bool :=
  m.tenant == tn && m.user == u

/-- The `(tn, u)` thread, oldest first (the table is in insertion order). -/
def threadOf (tn u : Nat) (db : List Msg) : List Msg :=
  db.filter (sameThread tn u)

/-- Remove the oldest (first, by insertion order) message of the
`(tn, u)` thread. -/
def evictOldest (tn u : Nat) : List Msg → List Msg
  | [] => []
  | m :: rest =>
    if sameThread tn u m then rest else m :: evictOldest tn u rest

/-- Modelled from the spec: `append(tenant, user, role, content)` — store
at the end (newest), then evict the thread's oldest message if the cap is
exceeded. -/
def appendMsg (cap tn u role content : Nat) (db : List Msg) : List Msg :=
  let db' := db ++ [⟨tn, u, role, content⟩]
  if cap < (threadOf tn u db').length then evictOldest tn u db' else db'

/-- Modelled from the spec: `recent(tenant, user, limit)` — the thread's
last `limit` messages, oldest→newest. -/
def recent (tn u limit : Nat) (db : List Msg) : List Msg :=
  let t := threadOf tn u db
  t.drop (t.length - limit)

/-- The spec's bound: no thread ever exceeds the cap. -/
def MemOk (cap : Nat) (db : List Msg) : Prop :=
  ∀ tn u, (threadOf tn u db).length ≤ cap

theorem sameThread_both (tn u tn' u' : Nat) (m : Msg)
    (h1 : sameThread tn u m = true) (h2 : sameThread tn' u' m = true) :
    tn = tn' ∧ u = u' := by
  simp only [sameThread, Bool.and_eq_true, beq_iff_eq] at h1 h2
  exact ⟨h1.1 ▸ h2.1, h1.2 ▸ h2.2⟩

theorem threadOf_append (tn u : Nat) (db : List Msg) (m : Msg) :
    threadOf tn u (db ++ [m]) =
      threadOf tn u db ++ if sameThread tn u m then [m] else [] := by
  unfold threadOf
  rw [List.filter_append]
  cases h : sameThread tn u m <;> simp [List.filter, h]

theorem threadOf_evictOldest_self (tn u : Nat) (l : List Msg) :
    threadOf tn u (evictOldest tn u l) = (threadOf tn u l).tail := by
  induction l with
  | nil => rfl
  | cons m rest ih =>
    by_cases h : sameThread tn u m = true
    · simp [evictOldest, threadOf, h, List.filter_cons]
    · simp only [evictOldest, h, if_neg, Bool.false_eq_true, not_false_eq_true]
      simp only [threadOf, List.filter_cons] at ih ⊢
      simp [h, ih]

theorem threadOf_evictOldest_other (tn u tn' u' : Nat)
    (h : tn ≠ tn' ∨ u ≠ u') (l : List Msg) :
    threadOf tn u (evictOldest tn' u' l) = threadOf tn u l := by
  induction l with
  | nil => rfl
  | cons m rest ih =>
    by_cases hm : sameThread tn' u' m = true
    · have hne : sameThread tn u m = false := by
        cases hs : sameThread tn u m
        · rfl
        · obtain ⟨he1, he2⟩ := sameThread_both tn u tn' u' m hs hm
          rcases h with h | h
          · exact absurd he1 h
          · exact absurd he2 h
      simp [evictOldest, hm, threadOf, List.filter_cons, hne]
    · simp only [evictOldest, hm, if_neg, Bool.false_eq_true, not_false_eq_true]
      simp only [threadOf, List.filter_cons] at ih ⊢
      cases hs : sameThread tn u m <;> simp [hs, ih]

theorem sameThread_mk_other (tn u tn' u' role content : Nat)
    (h : tn ≠ tn' ∨ u ≠ u') :
    sameThread tn u ⟨tn', u', role, content⟩ = false := by
  show (tn' == tn && (u' == u)) = false
  rcases h with h | h
  · rw [beq_eq_false_iff_ne.mpr (fun he => h he.symm), Bool.false_and]
  · rw [beq_eq_false_iff_ne.mpr (fun he => h he.symm), Bool.and_false]

theorem threadOf_appendMsg_other (cap tn u tn' u' role content : Nat)
    (db : List Msg) (h : tn ≠ tn' ∨ u ≠ u') :
    threadOf tn u (appendMsg cap tn' u' role content db) = threadOf tn u db := by
  unfold appendMsg
  have hap : threadOf tn u (db ++ [⟨tn', u', role, content⟩]) = threadOf tn u db := by
    rw [threadOf_append, sameThread_mk_other tn u tn' u' role content h]
    simp
  by_cases hov : cap < (threadOf tn' u' (db ++ [⟨tn', u', role, content⟩])).length
  · rw [if_pos hov, threadOf_evictOldest_other tn u tn' u' h, hap]
  · rw [if_neg hov, hap]

theorem appendMsg_preserves_memOk (cap tn u role content : Nat) (db : List Msg)
    (h : MemOk cap db) : MemOk cap (appendMsg cap tn u role content db) := by
  intro tn2 u2
  by_cases hkey : tn2 = tn ∧ u2 = u
  · obtain ⟨rfl, rfl⟩ := hkey
    unfold appendMsg
    have hlen : (threadOf tn2 u2 (db ++ [⟨tn2, u2, role, content⟩])).length ≤ cap + 1 := by
      rw [threadOf_append]
      have := h tn2 u2
      cases hs : sameThread tn2 u2 (⟨tn2, u2, role, content⟩ : Msg) <;>
        simp [List.length_append] <;> omega
    by_cases hov : cap < (threadOf tn2 u2 (db ++ [⟨tn2, u2, role, content⟩])).length
    · rw [if_pos hov, threadOf_evictOldest_self]
      rw [List.length_tail]
      omega
    · rw [if_neg hov]
      omega
  · have hne : tn2 ≠ tn ∨ u2 ≠ u := by tauto
    rw [threadOf_appendMsg_other cap tn2 u2 tn u role content db hne]
    exact h tn2 u2

/-! ### Claim theorem about Conversation Memory -/

/-- Claim C6: `recent(tenant, user, limit)` returns the thread's `limit`
most recent messages (fewer when fewer exist) in chronological
oldest→newest order — it is the order-preserving suffix of the thread,
whatever the interleaving of other traffic in the table — every returned
message belongs to the requested `(tenant, user)` pair, appends for any
other pair leave it unchanged, the thread bound is preserved by `append`,
and eviction removes exactly the thread's oldest (first-inserted)
message. -/
theorem claim_C6_recent_ordered_bounded :
    (∀ tn u k db, threadOf tn u db =
        (threadOf tn u db).take ((threadOf tn u db).length - k) ++ recent tn u k db)
    ∧ (∀ tn u k db, (recent tn u k db).length = min k (threadOf tn u db).length)
    ∧ (∀ tn u k db, ∀ m ∈ recent tn u k db, m.tenant = tn ∧ m.user = u)
    ∧ (∀ cap tn u k tn' u' role content db, tn ≠ tn' ∨ u ≠ u' →
        recent tn u k (appendMsg cap tn' u' role content db) = recent tn u k db)
    ∧ (∀ cap tn u role content db, MemOk cap db →
        MemOk cap (appendMsg cap tn u role content db))
    ∧ (∀ tn u l, threadOf tn u (evictOldest tn u l) = (threadOf tn u l).tail) := by
  refine ⟨?_, ?_, ?_, ?_, appendMsg_preserves_memOk, threadOf_evictOldest_self⟩
  · intro tn u k db
    exact (List.take_append_drop ((threadOf tn u db).length - k) (threadOf tn u db)).symm
  · intro tn u k db
    unfold recent
    rw [List.length_drop]
    omega
  · intro tn u k db m hm
    have hmem : m ∈ threadOf tn u db := List.mem_of_mem_drop hm
    have := List.mem_filter.mp hmem
    simpa [sameThread, Bool.and_eq_true, beq_iff_eq] using this.2
  · intro cap tn u k tn' u' role content db h
    unfold recent
    rw [threadOf_appendMsg_other cap tn u tn' u' role content db h]

theorem claim_C6_witness :
    ((0 : Nat) ≠ 1 ∨ (0 : Nat) ≠ 0)
    ∧ recent 0 0 10 (appendMsg 10 1 0 0 3 [⟨0, 0, 0, 1⟩]) =
        recent 0 0 10 [⟨0, 0, 0, 1⟩]
    ∧ MemOk 10 ([] : List Msg)
    ∧ MemOk 10 (appendMsg 10 0 0 0 1 []) := by
  have h0 : MemOk 10 ([] : List Msg) := by
    intro tn u
    simp [threadOf]
  refine ⟨Or.inl (by decide), ?_, h0, ?_⟩
  · exact claim_C6_recent_ordered_bounded.2.2.2.1 10 0 0 10 1 0 0 3
      [⟨0, 0, 0, 1⟩] (Or.inl (by decide))
  · exact claim_C6_recent_ordered_bounded.2.2.2.2.1 10 0 0 0 1 [] h0

/-! ## WhatsApp number registration
(`admin-console/lib/actions/whatsapp-numbers.ts`)

`addWhatsAppNumber` guards: authentication, super-admin permission, a
`/^\d{10,25}$/` check on `phone_number_id`, a `/^\+?\d{10,15}$/` check on
the phone number after stripping spaces and hyphens, then a
`findUnique({ where: { phone_number_id } })` lookup — refusing to create
the row when the id is already registered. -/

/-- The parts of the NextAuth session the action reads: whether a user is
present, and whether `isSuperAdmin(session)` holds. -/
structure Session where
  hasUser : Bool
  superAdmin : Bool
deriving DecidableEq, Repr

/-- A `whatsapp_numbers` row. -/
structure WaNumber where
  rowId : Nat
  business_id : Nat
  phone_number_id : List Char
  phone_number : List Char
  display_name : Option (List Char)
  is_active : Bool
deriving DecidableEq, Repr

/-- The `whatsapp_numbers` table plus a fresh row-id counter. -/
structure WaState where
  rows : List WaNumber
  nextId : Nat
deriving DecidableEq, Repr

/-- The distinct return branches of `addWhatsAppNumber` (the source
returns `{ success: false, error: ... }` objects; constructors name the
branches). -/
inductive AddNumberResult
  | ok (n : WaNumber)
  | unauthorized
  | forbidden
  | invalidId
  | invalidNumber
  | alreadyRegistered
deriving DecidableEq, Repr

/-- An ASCII decimal digit. -/
def isDigitChar (c : Char) : Bool :=
  48 ≤ c.toNat && c.toNat ≤ 57

/-- `/^\d{10,25}$/.test(phoneNumberId)`. -/
def validPhoneNumberId (s : List Char) : Bool :=
  10 ≤ s.length && s.length ≤ 25 && s.all isDigitChar

/-- `/^\+?\d{10,15}$/.test(phoneNumber.replace(/[\s-]/g, ""))`, with
whitespace modelled as the space character. -/
def validPhoneNumber (s : List Char) : Bool :=
  match s.filter (fun c => !(c == ' ' || c == '-')) with
  | '+' :: rest => 10 ≤ rest.length && rest.length ≤ 15 && rest.all isDigitChar
  | t => 10 ≤ t.length && t.length ≤ 15 && t.all isDigitChar

/-- `prisma.whatsapp_numbers.findUnique({ where: { phone_number_id } })`:
lookup on the unique `phone_number_id` column. -/
def findByPhoneNumberId (pid : List Char) (rows : List WaNumber) : Option WaNumber :=
  rows.find? (fun r => r.phone_number_id == pid)

/-- `addWhatsAppNumber` from `whatsapp-numbers.ts`. -/
def addWhatsAppNumber (session : Session) (businessId : Nat)
    (phoneNumberId phoneNumber : List Char) (displayName : Option (List Char))
    (st : WaState) : AddNumberResult × WaState :=
  if !session.hasUser then (AddNumberResult.unauthorized, st)
  else if !session.superAdmin then (AddNumberResult.forbidden, st)
  else if !validPhoneNumberId phoneNumberId then (AddNumberResult.invalidId, st)
  else if !validPhoneNumber phoneNumber then (AddNumberResult.invalidNumber, st)
  else
    match findByPhoneNumberId phoneNumberId st.rows with
    | some _ => (AddNumberResult.alreadyRegistered, st)
    | none =>
      let n : WaNumber :=
        ⟨st.nextId, businessId, phoneNumberId, phoneNumber, displayName, true⟩
      (AddNumberResult.ok n, ⟨n :: st.rows, st.nextId + 1⟩)

/-- The channel-uniqueness invariant: no two rows share a
`phone_number_id`. -/
def UniqueChannels (rows : List WaNumber) : Prop :=
  rows.Pairwise (fun a b => a.phone_number_id ≠ b.phone_number_id)

theorem uniqueChannels_at_most_one (rows : List WaNumber)
    (h : UniqueChannels rows) (pid : List Char) :
    (rows.filter (fun r => r.phone_number_id == pid)).length ≤ 1 := by
  induction rows with
  | nil => simp
  | cons r rest ih =>
    rw [UniqueChannels, List.pairwise_cons] at h
    obtain ⟨hr, hrest⟩ := h
    rw [List.filter_cons]
    by_cases hp : (r.phone_number_id == pid) = true
    · rw [if_pos hp]
      have hnil : rest.filter (fun b => b.phone_number_id == pid) = [] := by
        rw [List.filter_eq_nil_iff]
        intro b hb
        have hne := hr b hb
        rw [beq_iff_eq] at hp
        simp only [beq_iff_eq]
        rw [← hp]
        exact fun he => hne he.symm
      rw [hnil]
      simp
    · rw [if_neg hp]
      exact ih hrest

/-! ### Claim theorem about WhatsApp number registration -/

/-- Claim C9: a WhatsApp `phone_number_id` is bound to at most one
business: `addWhatsAppNumber` never succeeds when a row with the
requested `phone_number_id` already exists (and leaves the table
unchanged), a successful add preserves the no-two-rows-share-an-id
invariant, and under that invariant resolving a channel address matches
at most one row. -/
theorem claim_C9_channel_uniqueness (session : Session) (businessId : Nat)
    (phoneNumberId phoneNumber : List Char) (displayName : Option (List Char))
    (st : WaState) :
    ((∃ r ∈ st.rows, r.phone_number_id = phoneNumberId) →
      (∀ n, (addWhatsAppNumber session businessId phoneNumberId phoneNumber
          displayName st).1 ≠ AddNumberResult.ok n)
      ∧ (addWhatsAppNumber session businessId phoneNumberId phoneNumber
          displayName st).2 = st)
    ∧ (UniqueChannels st.rows →
        UniqueChannels (addWhatsAppNumber session businessId phoneNumberId
          phoneNumber displayName st).2.rows)
    ∧ (UniqueChannels st.rows → ∀ pid,
        (st.rows.filter (fun r => r.phone_number_id == pid)).length ≤ 1) := by
  refine ⟨?_, ?_, fun h pid => uniqueChannels_at_most_one st.rows h pid⟩
  · intro hex
    unfold addWhatsAppNumber
    by_cases h1 : (!session.hasUser) = true
    · rw [if_pos h1]; exact ⟨fun n h => AddNumberResult.noConfusion h, rfl⟩
    · rw [if_neg h1]
      by_cases h2 : (!session.superAdmin) = true
      · rw [if_pos h2]; exact ⟨fun n h => AddNumberResult.noConfusion h, rfl⟩
      · rw [if_neg h2]
        by_cases h3 : (!validPhoneNumberId phoneNumberId) = true
        · rw [if_pos h3]; exact ⟨fun n h => AddNumberResult.noConfusion h, rfl⟩
        · rw [if_neg h3]
          by_cases h4 : (!validPhoneNumber phoneNumber) = true
          · rw [if_pos h4]; exact ⟨fun n h => AddNumberResult.noConfusion h, rfl⟩
          · rw [if_neg h4]
            obtain ⟨r, hr, hpid⟩ := hex
            have hfind : findByPhoneNumberId phoneNumberId st.rows ≠ none := by
              intro hnone
              rw [findByPhoneNumberId, List.find?_eq_none] at hnone
              exact hnone r hr (by simp [hpid])
            cases hf : findByPhoneNumberId phoneNumberId st.rows with
            | none => exact absurd hf hfind
            | some r' =>
              exact ⟨fun n h => AddNumberResult.noConfusion h, rfl⟩
  · intro huniq
    unfold addWhatsAppNumber
    by_cases h1 : (!session.hasUser) = true
    · rw [if_pos h1]; exact huniq
    · rw [if_neg h1]
      by_cases h2 : (!session.superAdmin) = true
      · rw [if_pos h2]; exact huniq
      · rw [if_neg h2]
        by_cases h3 : (!validPhoneNumberId phoneNumberId) = true
        · rw [if_pos h3]; exact huniq
        · rw [if_neg h3]
          by_cases h4 : (!validPhoneNumber phoneNumber) = true
          · rw [if_pos h4]; exact huniq
          · rw [if_neg h4]
            cases hf : findByPhoneNumberId phoneNumberId st.rows with
            | some r' => exact huniq
            | none =>
              rw [findByPhoneNumberId, List.find?_eq_none] at hf
              show UniqueChannels (_ :: st.rows)
              rw [UniqueChannels, List.pairwise_cons]
              refine ⟨?_, huniq⟩
              intro b hb
              have := hf b hb
              simp only [beq_iff_eq] at this
              exact fun he => this he.symm

theorem claim_C9_witness :
    (∃ r ∈ [WaNumber.mk 0 0 ("1234567890".toList) ("+571234567890".toList)
        none true], r.phone_number_id = "1234567890".toList)
    ∧ (∀ n, (addWhatsAppNumber ⟨true, true⟩ 1 ("1234567890".toList)
        ("+573001234567".toList) none
        ⟨[WaNumber.mk 0 0 ("1234567890".toList) ("+571234567890".toList)
          none true], 1⟩).1 ≠ AddNumberResult.ok n)
    ∧ UniqueChannels ([] : List WaNumber)
    ∧ UniqueChannels (addWhatsAppNumber ⟨true, true⟩ 1 ("1234567890".toList)
        ("+573001234567".toList) none ⟨[], 0⟩).2.rows := by
  have hex : ∃ r ∈ [WaNumber.mk 0 0 ("1234567890".toList)
      ("+571234567890".toList) none true],
      r.phone_number_id = "1234567890".toList :=
    ⟨WaNumber.mk 0 0 ("1234567890".toList) ("+571234567890".toList) none true,
      by simp, rfl⟩
  have hnil : UniqueChannels ([] : List WaNumber) := List.Pairwise.nil
  refine ⟨hex, ?_, hnil, ?_⟩
  · exact ((claim_C9_channel_uniqueness ⟨true, true⟩ 1 ("1234567890".toList)
      ("+573001234567".toList) none
      ⟨[WaNumber.mk 0 0 ("1234567890".toList) ("+571234567890".toList)
        none true], 1⟩).1 hex).1
  · exact (claim_C9_channel_uniqueness ⟨true, true⟩ 1 ("1234567890".toList)
      ("+573001234567".toList) none ⟨[], 0⟩).2.1 hnil

end WhatsAppBot
